import Mathlib

/-!
Verification development for the sandboxed-script content layer of chisel
(`internal/scripts`): the path-confinement resolver `RealPath`, the
cancellable read primitive `SafeReadFile`, and the `Content` methods
`read`, `write` and `list`.

The Go code is shallowly embedded: paths are `String`s, the filesystem is a
finite association list from real paths to nodes, and the observable side
effects of a call (authorization-predicate invocations, `Readlink` calls,
handle opens, file creations, post-write callbacks) are collected in an
explicit event trace.  The Go standard-library path helpers used by the
source (`filepath.Clean`, `Join`, `Dir`, `Rel`, `IsAbs`,
`strings.HasPrefix`, `strings.HasSuffix`) are reimplemented over `List
Char` with Unix separators, following their documented lexical semantics.
-/

set_option autoImplicit false

namespace Chisel

/-! ### Path components

Go's `filepath` functions are lexical: they act on the `/`-separated
components of a path.  `comps` splits a character list into its maximal
nonempty separator-free runs, mirroring the component iteration inside
`filepath.Clean`. -/

/-- Accumulating splitter: `acc` holds the (reversed) characters of the
component currently being read. -/
def compsAux (acc : List Char) : List Char → List (List Char)
  | [] => if acc = [] then [] else [acc.reverse]
  | ch :: rest =>
    if ch = '/' then
      if acc = [] then compsAux [] rest else acc.reverse :: compsAux [] rest
    else compsAux (ch :: acc) rest

/-- The nonempty `/`-free components of a character list. -/
def comps (l : List Char) : List (List Char) := compsAux [] l

/-- One pass of `filepath.Clean`'s element processing: drop `.`, resolve
`..` against the output stack (`acc`, reversed), keep everything else.  For
a rooted path a leading `..` is dropped; for a relative path it is kept. -/
def cleanComps (rooted : Bool) (acc : List (List Char)) :
    List (List Char) → List (List Char)
  | [] => acc.reverse
  | c :: rest =>
    if c = ['.'] then cleanComps rooted acc rest
    else if c = ['.', '.'] then
      match acc with
      | [] =>
        if rooted then cleanComps rooted [] rest
        else cleanComps rooted [['.', '.']] rest
      | a :: acc2 =>
        if a = ['.', '.'] then cleanComps rooted (['.', '.'] :: acc) rest
        else cleanComps rooted acc2 rest
    else cleanComps rooted (c :: acc) rest

/-- Join components back with single separators (no leading or trailing
separator). -/
def joinWithSlash : List (List Char) → List Char
  | [] => []
  | [c] => c
  | c :: rest => c ++ '/' :: joinWithSlash rest

/-! ### The `filepath` and `strings` helpers used by `scripts.go` -/

/-- Go `path/filepath.IsAbs` on Unix: the path starts with the separator. -/
def IsAbs (s : String) : Bool :=
  match s.data with
  | ch :: _ => ch == '/'
  | [] => false

/-- Go `path/filepath.Clean` on Unix: shortest lexical equivalent — single
separators, no `.` elements, inner `..` resolved, rooted `/..` collapsed to
`/`; the empty path cleans to `.`. -/
def Clean (p : String) : String :=
  if p.data = [] then "."
  else
    let rooted := IsAbs p
    let cl := cleanComps rooted [] (comps p.data)
    if rooted then String.mk ('/' :: joinWithSlash cl)
    else if cl = [] then "." else String.mk (joinWithSlash cl)

/-- Go `path/filepath.Join` for two elements: empty elements are dropped,
the rest are joined with a separator and the result is cleaned. -/
def Join (a b : String) : String :=
  if a.data = [] ∧ b.data = [] then ""
  else if a.data = [] then Clean b
  else if b.data = [] then Clean a
  else Clean (String.mk (a.data ++ '/' :: b.data))

/-- Go `path/filepath.Dir`: everything up to and including the final
separator, cleaned (`.` when there is no separator). -/
def Dir (p : String) : String :=
  Clean (String.mk ((p.data.reverse.dropWhile (fun ch => ch ≠ '/')).reverse))

/-- Go `strings.HasPrefix s pre`. -/
def HasPre (s pre : String) : Bool := List.isPrefixOf pre.data s.data

/-- Go `strings.HasSuffix s suf`. -/
def HasSuf (s suf : String) : Bool :=
  List.isPrefixOf suf.data.reverse s.data.reverse

/-- Strip the longest common leading run of components. -/
def relComps : List (List Char) → List (List Char) →
    List (List Char) × List (List Char)
  | b :: bs, t :: ts =>
    if b = t then relComps bs ts else (b :: bs, t :: ts)
  | bs, ts => (bs, ts)

/-- Go `path/filepath.Rel base targ` (Unix, no volumes): both paths are
cleaned; equal paths yield `.`; mixing an absolute with a relative path is
an error; otherwise the common leading components are stripped and each
remaining base component contributes one `..` (a remaining `..` in the base
makes the target unreachable and is an error).  `scripts.go` only calls
this with an absolute cleaned `base` (the root) and an absolute `targ`. -/
def Rel (base targ : String) : Except Unit String :=
  let bc := Clean base
  let tc := Clean targ
  if bc = tc then .ok "."
  else if (IsAbs bc = true) ≠ (IsAbs tc = true) then .error ()
  else
    let bcs := if bc = "." then [] else comps bc.data
    let tcs := if tc = "." then [] else comps tc.data
    let (brest, trest) := relComps bcs tcs
    if brest.contains ['.', '.'] then .error ()
    else .ok (String.mk (joinWithSlash
      (List.replicate brest.length ['.', '.'] ++ trest)))

/-- Decidable equality for `Except`, needed to evaluate the model on
concrete inputs. -/
instance {ε α : Type} [DecidableEq ε] [DecidableEq α] :
    DecidableEq (Except ε α) := fun x y =>
  match x, y with
  | .error e, .error f =>
    if h : e = f then isTrue (by rw [h])
    else isFalse (fun hh => h (Except.error.inj hh))
  | .error _, .ok _ => isFalse (fun hh => Except.noConfusion hh)
  | .ok _, .error _ => isFalse (fun hh => Except.noConfusion hh)
  | .ok a, .ok b =>
    if h : a = b then isTrue (by rw [h])
    else isFalse (fun hh => h (Except.ok.inj hh))

/-! ### The filesystem model

`scripts.go` touches the filesystem through `os.Readlink` (in `RealPath`),
`os.Open`/`File.WriteTo` (in `SafeReadFile`), `fsutil.Create` (in
`Content.write`) and `os.Open`/`File.ReadDir` (in `Content.list`).  The
state those calls observe is modelled as a finite association list from
real paths to nodes. -/

/-- A directory entry as surfaced by `File.ReadDir`: a name and whether the
entry is itself a directory. -/
structure DirEntry where
  name : String
  isDir : Bool
  deriving DecidableEq

/-- A filesystem node: a regular file with contents, a directory with an
ordered entry listing, or a symbolic link with a stored target string. -/
inductive Node
  | file (content : String)
  | dir (entries : List DirEntry)
  | symlink (target : String)
  deriving DecidableEq

/-- The filesystem: real path → node. -/
def Fs : Type := List (String × Node)

/-- Exact-path lookup (no implicit symlink traversal: each Go syscall in
the source names one concrete real path). -/
def fsLookup (fs : Fs) (p : String) : Option Node :=
  match fs with
  | [] => none
  | (q, n) :: rest => if q = p then some n else fsLookup rest p

/-- Go `os.Readlink`: the stored target when `p` names a symlink, an error
(`none`) otherwise. -/
def Readlink (fs : Fs) (p : String) : Option String :=
  match fsLookup fs p with
  | some (Node.symlink t) => some t
  | _ => none

/-! ### Data model of the content object -/

/-- Metadata of a completed write, handed to the post-write callback.
Modelled from the spec: `fsutil.Entry` is defined outside this package;
the spec only requires "the metadata of a completed write, used by the
host to record the resulting artifact". -/
structure Entry where
  path : String
  size : Nat
  mode : Nat
  deriving DecidableEq

/-- `scripts.ContentValue`: the root binding.  The authorization
predicates return `some msg` to reject (Go: a non-nil `error`) and `none`
to allow; an absent predicate (Go: nil function field) skips the check.
`OnWrite` likewise returns `some msg` for a callback error. -/
structure ContentValue where
  RootDir : String
  CheckRead : Option (String → Option String) := none
  CheckWrite : Option (String → Option String) := none
  OnWrite : Entry → Option String := fun _ => none

/-- Go `*os.PathError`: an operation, the path it refers to, and the
underlying message. -/
structure PathError where
  op : String
  path : String
  msg : String
  deriving DecidableEq

/-- The errors the embedded operations can produce, one constructor per
distinct `return ... err` shape in the source.  `fuelOut` is the model's
marker for recursion deeper than the supplied fuel (the Go code has no
such bound; see the non-termination theorem). -/
inductive Err
  | relativeRoot (root : String)
  | relativePath (path : String)
  | check (msg : String)
  | invalidPath (path : String)
  | invalidSymlink (path : String)
  | canceled
  | io (e : PathError)
  | hook (msg : String)
  | fuelOut
  deriving DecidableEq

/-- Observable side effects, in order of occurrence: authorization
predicate invocations, `Readlink` calls, handle opens, file creations and
post-write callback invocations. -/
inductive Ev
  | evCheckRead (path : String)
  | evCheckWrite (path : String)
  | evReadlink (path : String)
  | evOpen (path : String)
  | evCreate (path : String) (data : String)
  | evOnWrite (entry : Entry)
  deriving DecidableEq

/-- The `Check` bitmask constants of `scripts.go` (`CheckNone = 0`,
`CheckRead = 1 << 1`, `CheckWrite = 1 << 2` — the Go `iota` starts the
shift at 1 because `CheckNone` occupies the first line). -/
def CheckNone : Nat := 0

/-- Read-authorization bit of the `Check` bitmask. -/
def CheckRead : Nat := 2

/-- Write-authorization bit of the `Check` bitmask. -/
def CheckWrite : Nat := 4

/-! ### RealPath -/

/-- The virtual path as the authorization predicates see it:
`filepath.Clean` plus the re-appended distinguishing trailing separator
(`scripts.go` lines: `cpath := filepath.Clean(path); if cpath != "/" &&
strings.HasSuffix(path, "/") { cpath += "/" }`). -/
def normPath (p : String) : String :=
  let cp := Clean p
  if cp ≠ "/" ∧ HasSuf p "/" = true then cp ++ "/" else cp

/-- The read-check step of `RealPath`: runs `c.CheckRead` on `s` when the
predicate is present and the bitmask requests it, reporting the
predicate's verdict and the invocation event. -/
def runRead (c : ContentValue) (what : Nat) (s : String) :
    Option String × List Ev :=
  match c.CheckRead with
  | some f =>
    if Nat.land what CheckRead ≠ 0 then (f s, [Ev.evCheckRead s])
    else (none, [])
  | none => (none, [])

/-- The write-check step of `RealPath`, symmetric to `runRead`. -/
def runWrite (c : ContentValue) (what : Nat) (s : String) :
    Option String × List Ev :=
  match c.CheckWrite with
  | some f =>
    if Nat.land what CheckWrite ≠ 0 then (f s, [Ev.evCheckWrite s])
    else (none, [])
  | none => (none, [])

/-- The confinement guard of `RealPath`: `filepath.IsAbs(r) && (r ==
root || strings.HasPrefix(r, root + "/"))` — the negation of the escape
condition tested in the source. -/
def confineOk (root r : String) : Bool :=
  IsAbs r && (r == root || HasPre r (root ++ "/"))

/-- One unfolding of `ContentValue.RealPath`, parametrised by the
recursive call used for a symlink target.  Field-by-field translation of
`scripts.go`: absolute-root and absolute-path guards, normalization,
read/write checks on the normalized virtual path, join onto the root,
confinement guard, `Readlink`, symlink-target join and `Rel` conversion,
symlink confinement guard, recursion. -/
def RealPathCore (fs : Fs) (c : ContentValue) (path : String) (what : Nat)
    (recur : String → Except Err String × List Ev) :
    Except Err String × List Ev :=
  if IsAbs c.RootDir = false then (.error (.relativeRoot c.RootDir), [])
  else if IsAbs path = false then (.error (.relativePath path), [])
  else
    let cpath := normPath path
    match runRead c what cpath with
    | (some e, evs) => (.error (.check e), evs)
    | (none, evs1) =>
      match runWrite c what cpath with
      | (some e, evs2) => (.error (.check e), evs1 ++ evs2)
      | (none, evs2) =>
        let rpath := Join c.RootDir path
        if confineOk c.RootDir rpath = false then
          (.error (.invalidPath path), evs1 ++ evs2)
        else
          match Readlink fs rpath with
          | none => (.ok rpath, evs1 ++ evs2 ++ [Ev.evReadlink rpath])
          | some lname =>
            let lpath := Join (Dir rpath) lname
            match Rel c.RootDir lpath with
            | .error _ =>
              (.error (.invalidSymlink path),
               evs1 ++ evs2 ++ [Ev.evReadlink rpath])
            | .ok lrel =>
              if confineOk c.RootDir lpath = false then
                (.error (.invalidSymlink path),
                 evs1 ++ evs2 ++ [Ev.evReadlink rpath])
              else
                match recur ("/" ++ lrel) with
                | (.error e, evs3) =>
                  (.error e, evs1 ++ evs2 ++ [Ev.evReadlink rpath] ++ evs3)
                | (.ok _, evs3) =>
                  (.ok rpath, evs1 ++ evs2 ++ [Ev.evReadlink rpath] ++ evs3)

/-- `ContentValue.RealPath` with an explicit recursion-depth bound (the Go
function is unboundedly recursive; `fuel` only limits how far the model
unfolds it, and exhaustion is reported as `Err.fuelOut`). -/
def RealPath (fs : Fs) (c : ContentValue) (path : String) (what : Nat) :
    Nat → Except Err String × List Ev
  | 0 => (.error .fuelOut, [])
  | fuel + 1 =>
    RealPathCore fs c path what (fun q => RealPath fs c q what fuel)

/-! ### SafeReadFile -/

/-- The cancellation state of the starlark thread's context over one call:
whether the signal had fired before the call started, and whether it has
fired by the time the data transfer finishes.  Cancellation is monotone in
the source (a fired context stays fired), so a state with `startCancel =
true` and `endCancel = false` never arises; the theorems only use states
respecting this. -/
structure Ctx where
  startCancel : Bool
  endCancel : Bool

/-- The outcome of the `f.WriteTo(sb)` transfer, beyond the contents read:
`closed` models the transfer aborting with the `os.ErrClosed` sentinel
after the cancellation observer forcibly closed the handle; `osErr` models
a genuine I/O fault.  `none` (in `Option Fault`) is an undisturbed
transfer. -/
inductive Fault
  | closed
  | osErr (e : PathError)
  deriving DecidableEq

/-- Go `os.Open` followed by reading the contents back: the file's
contents on success, a `*os.PathError` naming the opened real path
otherwise.  (A symlink node would be followed by the OS; no claim under
study depends on that case, and the model reports it as an open error
naming the path, as for a dangling link.) -/
def openFile (fs : Fs) (p : String) : Except PathError String :=
  match fsLookup fs p with
  | some (Node.file content) => .ok content
  | some (Node.dir _) => .error { op := "read", path := p, msg := "is a directory" }
  | some (Node.symlink _) => .error { op := "open", path := p, msg := "no such file or directory" }
  | none => .error { op := "open", path := p, msg := "no such file or directory" }

/-- `scripts.SafeReadFile`: fail with the context's cancellation cause
before opening anything if the signal already fired; otherwise open the
file, transfer its contents, and map a transfer abort caused by the
observer's forced close (`os.ErrClosed`) to the context's error.  The
trace records the handle open. -/
def SafeReadFile (ctx : Ctx) (fs : Fs) (fpath : String)
    (fault : Option Fault) : Except Err String × List Ev :=
  if ctx.startCancel then (.error .canceled, [])
  else
    match openFile fs fpath with
    | .error e => (.error (.io e), [Ev.evOpen fpath])
    | .ok content =>
      match fault with
      | none => (.ok content, [Ev.evOpen fpath])
      | some Fault.closed =>
        if ctx.endCancel then (.error .canceled, [Ev.evOpen fpath])
        else (.ok "", [Ev.evOpen fpath])
      | some (Fault.osErr e) => (.error (.io e), [Ev.evOpen fpath])

/-! ### The Content methods -/

/-- `ContentValue.polishError`: rewrite the path inside a `*os.PathError`
to the script-supplied virtual path; leave every other error untouched. -/
def polishError (path : String) : Err → Err
  | .io e => .io { e with path := path }
  | e => e

/-- `contentValueRead` (`Content.read`): resolve with the read check, then
`SafeReadFile`, polishing any error it reports. -/
def contentValueRead (ctx : Ctx) (fs : Fs) (c : ContentValue)
    (path : String) (fault : Option Fault) (fuel : Nat) :
    Except Err String × List Ev :=
  match RealPath fs c path CheckRead fuel with
  | (.error e, evs) => (.error e, evs)
  | (.ok fpath, evs) =>
    match SafeReadFile ctx fs fpath fault with
    | (.error e, evs2) => (.error (polishError path e), evs ++ evs2)
    | (.ok data, evs2) => (.ok data, evs ++ evs2)

/-- Modelled from the spec: `fsutil.Create` lives outside this package;
per the spec, `write` "persists `data` at the resolved location" and the
callback receives "the resulting artifact's metadata".  The model commits
the bytes at `fpath` (recorded as an `evCreate` event) and returns the
entry metadata; writing where a directory sits fails with a
`*os.PathError` naming the real path, as the OS would. -/
def fsutilCreate (fs : Fs) (fpath : String) (data : String) :
    Except PathError Entry :=
  match fsLookup fs fpath with
  | some (Node.dir _) =>
    .error { op := "open", path := fpath, msg := "is a directory" }
  | _ => .ok { path := fpath, size := data.length, mode := 420 }

/-- `contentValueWrite` (`Content.write`): resolve with the write check,
create the file via `fsutil.Create` (polishing its error), then invoke the
`OnWrite` callback with the resulting entry and propagate its error. -/
def contentValueWrite (fs : Fs) (c : ContentValue) (path data : String)
    (fuel : Nat) : Except Err Unit × List Ev :=
  match RealPath fs c path CheckWrite fuel with
  | (.error e, evs) => (.error e, evs)
  | (.ok fpath, evs) =>
    match fsutilCreate fs fpath data with
    | .error e => (.error (polishError path (.io e)), evs)
    | .ok entry =>
      match c.OnWrite entry with
      | some msg =>
        (.error (.hook msg), evs ++ [Ev.evCreate fpath data, Ev.evOnWrite entry])
      | none =>
        (.ok (), evs ++ [Ev.evCreate fpath data, Ev.evOnWrite entry])

/-- A listed name: the entry's name, with the trailing separator appended
when the entry is a directory. -/
def fmtEntry (e : DirEntry) : String :=
  if e.isDir then e.name ++ "/" else e.name

/-- The body of the `Content.list` enumeration loop, structurally bounded
by the number of remaining iterations (each `ReadDir(16)` batch consumes
at least one entry, so `l.length` iterations always suffice). -/
def listBatchesAux : Nat → List DirEntry → List String
  | _, [] => []
  | 0, _ :: _ => []
  | n + 1, e :: rest =>
    ((e :: rest).take 16).map fmtEntry ++ listBatchesAux n ((e :: rest).drop 16)

/-- The `Content.list` enumeration loop: `f.ReadDir(16)` until `io.EOF`,
collecting formatted names batch by batch. -/
def listBatches (l : List DirEntry) : List String :=
  listBatchesAux l.length l

/-- Go `os.Open` + `File.ReadDir` on a directory: its ordered entries, or
a `*os.PathError` naming the real path. -/
def readDir (fs : Fs) (p : String) : Except PathError (List DirEntry) :=
  match fsLookup fs p with
  | some (Node.dir entries) => .ok entries
  | some (Node.file _) =>
    .error { op := "readdirent", path := p, msg := "not a directory" }
  | some (Node.symlink _) =>
    .error { op := "readdirent", path := p, msg := "not a directory" }
  | none => .error { op := "open", path := p, msg := "no such file or directory" }

/-- `contentValueList` (`Content.list`): append the implied trailing
separator, resolve with the read check, then enumerate in batches of 16,
polishing any OS error. -/
def contentValueList (fs : Fs) (c : ContentValue) (path : String)
    (fuel : Nat) : Except Err (List String) × List Ev :=
  let dpath := if HasSuf path "/" then path else path ++ "/"
  match RealPath fs c dpath CheckRead fuel with
  | (.error e, evs) => (.error e, evs)
  | (.ok fpath, evs) =>
    match readDir fs fpath with
    | .error e => (.error (polishError path (.io e)), evs ++ [Ev.evOpen fpath])
    | .ok entries =>
      (.ok (listBatches entries), evs ++ [Ev.evOpen fpath])

/-! ### Confinement (C1) -/

/-- Reading off the confinement guard: a path it accepts is the root
itself or sits strictly below the root. -/
lemma confineOk_spec {root r : String} (h : confineOk root r = true) :
    r = root ∨ HasPre r (root ++ "/") = true := by
  simp only [confineOk, Bool.and_eq_true, Bool.or_eq_true, beq_iff_eq] at h
  exact h.2

/-- Every successful unfolding of the resolver returns a path that passed
the confinement guard of its own frame. -/
lemma realPathCore_ok_guard {fs : Fs} {c : ContentValue} {p : String}
    {what : Nat} {recur : String → Except Err String × List Ev}
    {r : String} {evs : List Ev}
    (h : RealPathCore fs c p what recur = (Except.ok r, evs)) :
    confineOk c.RootDir r = true := by
  simp only [RealPathCore] at h
  split at h
  · simp at h
  · split at h
    · simp at h
    · split at h
      · simp at h
      · split at h
        · simp at h
        · split at h
          · simp at h
          · rename_i hguard
            simp only [Bool.not_eq_false] at hguard
            split at h
            · simp only [Prod.mk.injEq, Except.ok.injEq] at h
              rw [← h.1]
              exact hguard
            · split at h
              · simp at h
              · split at h
                · simp at h
                · split at h
                  · simp at h
                  · simp only [Prod.mk.injEq, Except.ok.injEq] at h
                    rw [← h.1]
                    exact hguard

/-- C1: for every virtual path and check mode, a real path returned by
`RealPath` is exactly the confinement root or has the root followed by a
separator as a prefix — the resolver never returns a path outside the
root. -/
theorem c1_realpath_confined (fs : Fs) (c : ContentValue) (p : String)
    (what n : Nat) (r : String)
    (h : (RealPath fs c p what n).1 = .ok r) :
    r = c.RootDir ∨ HasPre r (c.RootDir ++ "/") = true := by
  cases n with
  | zero => simp [RealPath] at h
  | succ m =>
    rcases hrp : RealPath fs c p what (m + 1) with ⟨res, evs⟩
    rw [hrp] at h
    simp only at h
    subst h
    exact confineOk_spec (realPathCore_ok_guard hrp)

/-- Witness for C1: resolving `/a` under root `/r` on an empty filesystem
succeeds with `/r/a`, which indeed extends the root by a separator. -/
theorem c1_realpath_confined_witness :
    ("/r/a" : String) = "/r" ∨ HasPre "/r/a" ("/r" ++ "/") = true :=
  c1_realpath_confined [] { RootDir := "/r" } "/a" CheckNone 1 "/r/a" (by decide)

/-! ### Non-termination on a symlink cycle (C10) -/

/-- A filesystem whose single entry is a symlink at `/r/x` pointing to
itself (target `x`, resolved relative to `/r`). -/
def cycleFs : Fs := [("/r/x", Node.symlink "x")]

/-- The content object rooted at `/r`, with no authorization checks. -/
def cycleRoot : ContentValue := { RootDir := "/r" }

/-- C10 (the code at the failing input): on the self-referential symlink
`/r/x → x`, resolving `/x` recurses on the very same virtual path `/x`
forever — no recursion depth suffices, so the Go function, which has no
depth bound, never terminates on this state. -/
theorem c10_realpath_diverges_on_cycle (n : Nat) :
    (RealPath cycleFs cycleRoot "/x" CheckNone n).1 = .error .fuelOut := by
  induction n with
  | zero => rfl
  | succ m ih =>
    have hstep : RealPath cycleFs cycleRoot "/x" CheckNone (m + 1)
        = (match RealPath cycleFs cycleRoot "/x" CheckNone m with
           | (.error e, evs3) => (.error e, [Ev.evReadlink "/r/x"] ++ evs3)
           | (.ok _, evs3) => (.ok "/r/x", [Ev.evReadlink "/r/x"] ++ evs3)) := rfl
    rw [hstep]
    rcases h : RealPath cycleFs cycleRoot "/x" CheckNone m with ⟨res, evs⟩
    rw [h] at ih
    simp only at ih
    subst ih
    rfl

/-! ### Symlink resolution (C2) -/

/-- C2: when the resolved real path `Join root p` is a symlink with target
`lname`, the resolver joins the target onto the symlink's containing
directory, converts the result back into a root-relative virtual path via
`Rel`, and recursively resolves `"/" ++ lrel` with the same check mode; a
target that cannot be expressed as a root-relative virtual path or that
falls outside the root yields the confinement error `invalidSymlink`, an
error of the recursive resolution (a chained escape) propagates, and
otherwise the symlink's own real path is returned. -/
theorem c2_symlink_resolution (fs : Fs) (c : ContentValue)
    (p lname : String) (what n : Nat)
    (h1 : IsAbs c.RootDir = true) (h2 : IsAbs p = true)
    (h3 : (runRead c what (normPath p)).1 = none)
    (h4 : (runWrite c what (normPath p)).1 = none)
    (h5 : confineOk c.RootDir (Join c.RootDir p) = true)
    (h6 : Readlink fs (Join c.RootDir p) = some lname) :
    (RealPath fs c p what (n + 1)).1 =
      (match Rel c.RootDir (Join (Dir (Join c.RootDir p)) lname) with
       | .error _ => .error (.invalidSymlink p)
       | .ok lrel =>
         if confineOk c.RootDir (Join (Dir (Join c.RootDir p)) lname) = false
         then .error (.invalidSymlink p)
         else
           match (RealPath fs c ("/" ++ lrel) what n).1 with
           | .error e => .error e
           | .ok _ => .ok (Join c.RootDir p)) := by
  have hunf : RealPath fs c p what (n + 1)
      = RealPathCore fs c p what (fun q => RealPath fs c q what n) := rfl
  rw [hunf]
  rcases hr : runRead c what (normPath p) with ⟨oR, eR⟩
  rw [hr] at h3
  simp only at h3
  subst h3
  rcases hw : runWrite c what (normPath p) with ⟨oW, eW⟩
  rw [hw] at h4
  simp only at h4
  subst h4
  simp only [RealPathCore, h1, h2, hr, hw, h5, h6]
  simp only [Bool.true_eq_false, if_false, ite_false]
  rcases hrel : Rel c.RootDir (Join (Dir (Join c.RootDir p)) lname) with u | lrel
  · rfl
  · simp only
    cases hcf : confineOk c.RootDir (Join (Dir (Join c.RootDir p)) lname) with
    | true =>
      simp only [Bool.true_eq_false, if_false, ite_false]
      rcases hrec : RealPath fs c ("/" ++ lrel) what n with ⟨res, evs3⟩
      simp only
      cases res <;> rfl
    | false => rfl

/-- Witness for C2: a symlink `/r/s → ../out` escapes the root, so
resolving `/s` fails with the confinement error for symlinks. -/
theorem c2_symlink_resolution_witness :
    (RealPath [("/r/s", Node.symlink "../out")] { RootDir := "/r" }
      "/s" CheckNone 1).1 = .error (.invalidSymlink "/s") :=
  (c2_symlink_resolution [("/r/s", Node.symlink "../out")] { RootDir := "/r" }
    "/s" "../out" CheckNone 0 (by decide) (by decide) (by decide) (by decide)
    (by decide) (by decide)).trans (by decide)

/-! ### Normalization is idempotent

`RealPath` hands the authorization predicates `normPath path`, and on
recursion hands them `normPath ("/" ++ lrel)`.  To show the predicates
only ever see paths in normal form we prove `normPath` idempotent on
absolute paths, which needs the round trip between components and the
joined string. -/

/-- Unfolding `String.mk`. -/
lemma data_mk (l : List Char) : (String.mk l).data = l := rfl

/-- `IsAbs` in terms of the character list. -/
lemma isAbs_iff {p : String} : IsAbs p = true ↔ ∃ t, p.data = '/' :: t := by
  constructor
  · intro h
    unfold IsAbs at h
    rcases hd : p.data with _ | ⟨ch, t⟩
    · rw [hd] at h
      simp at h
    · rw [hd] at h
      have hch : ch = '/' := beq_iff_eq.mp h
      exact ⟨t, by rw [hch]⟩
  · rintro ⟨t, ht⟩
    unfold IsAbs
    rw [ht]
    rfl

/-- Components produced by the splitter are nonempty and separator-free. -/
lemma compsAux_good (l : List Char) : ∀ (acc : List Char), '/' ∉ acc →
    ∀ x ∈ compsAux acc l, x ≠ [] ∧ '/' ∉ x := by
  induction l with
  | nil =>
    intro acc hacc x hx
    simp only [compsAux] at hx
    split at hx
    · simp at hx
    · rename_i hne
      simp only [List.mem_singleton] at hx
      subst hx
      exact ⟨by simpa using hne, by simpa using hacc⟩
  | cons ch rest ih =>
    intro acc hacc x hx
    simp only [compsAux] at hx
    split at hx
    · rename_i hch
      subst hch
      split at hx
      · exact ih [] (by simp) x hx
      · rename_i hne
        rcases List.mem_cons.mp hx with hx1 | hx2
        · subst hx1
          exact ⟨by simpa using hne, by simpa using hacc⟩
        · exact ih [] (by simp) x hx2
    · rename_i hch
      refine ih (ch :: acc) ?_ x hx
      intro hmem
      rcases List.mem_cons.mp hmem with h1 | h2
      · exact hch h1.symm
      · exact hacc h2

/-- Components of any character list are nonempty and separator-free. -/
lemma comps_good (l : List Char) : ∀ x ∈ comps l, x ≠ [] ∧ '/' ∉ x :=
  compsAux_good l [] (by simp)

/-- Splitting walks through a separator-free component in one piece. -/
lemma compsAux_comp (c : List Char) (hc : '/' ∉ c) :
    ∀ (acc l : List Char), compsAux acc (c ++ l) = compsAux (c.reverse ++ acc) l := by
  induction c with
  | nil => intro acc l; simp
  | cons ch c2 ih =>
    intro acc l
    have hch : ¬ ch = '/' := by
      intro h
      subst h
      exact hc (List.mem_cons_self _ _)
    have hc2 : '/' ∉ c2 := fun h => hc (List.mem_cons_of_mem _ h)
    show compsAux acc (ch :: (c2 ++ l)) = _
    simp only [compsAux, if_neg hch]
    rw [ih hc2 (ch :: acc) l]
    simp

/-- Splitting the slash-joined components recovers them. -/
lemma comps_join (cs : List (List Char))
    (h : ∀ x ∈ cs, x ≠ [] ∧ '/' ∉ x) : comps (joinWithSlash cs) = cs := by
  induction cs with
  | nil => rfl
  | cons c rest ih =>
    rcases (h c (List.mem_cons_self _ _)) with ⟨hc1, hc2⟩
    have hrev : ¬ c.reverse = [] := by simpa using hc1
    cases rest with
    | nil =>
      show compsAux [] (joinWithSlash [c]) = [c]
      have hj : joinWithSlash [c] = c ++ [] := by simp [joinWithSlash]
      rw [hj, compsAux_comp c hc2 [] []]
      simp only [compsAux, List.append_nil, if_neg hrev]
      simp
    | cons c2 rest2 =>
      show compsAux [] (joinWithSlash (c :: c2 :: rest2)) = c :: c2 :: rest2
      have hrest : ∀ x ∈ c2 :: rest2, x ≠ [] ∧ '/' ∉ x :=
        fun x hx => h x (List.mem_cons_of_mem _ hx)
      simp only [joinWithSlash]
      rw [compsAux_comp c hc2 [] _]
      simp only [List.append_nil, compsAux, if_pos rfl, if_neg hrev,
        List.reverse_reverse]
      exact congrArg (c :: ·) (ih hrest)

/-- Every component emitted by the cleaning pass came from the stack or
from the input. -/
lemma cleanComps_sub (rooted : Bool) :
    ∀ (l acc : List (List Char)) (x : List Char),
      x ∈ cleanComps rooted acc l → x ∈ acc ∨ x ∈ l := by
  intro l
  induction l with
  | nil =>
    intro acc x hx
    simp only [cleanComps, List.mem_reverse] at hx
    exact Or.inl hx
  | cons c rest ih =>
    intro acc x hx
    by_cases h1 : c = ['.']
    · simp only [cleanComps] at hx
      rw [if_pos h1] at hx
      rcases ih acc x hx with ha | hb
      · exact Or.inl ha
      · exact Or.inr (List.mem_cons_of_mem _ hb)
    · by_cases h2 : c = ['.', '.']
      · simp only [cleanComps] at hx
        rw [if_neg h1, if_pos h2] at hx
        cases acc with
        | nil =>
          simp only [] at hx
          by_cases hro : rooted = true
          · rw [if_pos hro] at hx
            rcases ih [] x hx with ha | hb
            · simp at ha
            · exact Or.inr (List.mem_cons_of_mem _ hb)
          · rw [if_neg hro] at hx
            rcases ih _ x hx with ha | hb
            · simp only [List.mem_singleton] at ha
              subst ha
              exact Or.inr (h2 ▸ List.mem_cons_self _ _)
            · exact Or.inr (List.mem_cons_of_mem _ hb)
        | cons a acc2 =>
          simp only [] at hx
          by_cases h3 : a = ['.', '.']
          · rw [if_pos h3] at hx
            rcases ih _ x hx with ha | hb
            · rcases List.mem_cons.mp ha with hc | hd
              · subst hc
                exact Or.inr (h2 ▸ List.mem_cons_self _ _)
              · exact Or.inl hd
            · exact Or.inr (List.mem_cons_of_mem _ hb)
          · rw [if_neg h3] at hx
            rcases ih acc2 x hx with ha | hb
            · exact Or.inl (List.mem_cons_of_mem _ ha)
            · exact Or.inr (List.mem_cons_of_mem _ hb)
      · simp only [cleanComps] at hx
        rw [if_neg h1, if_neg h2] at hx
        rcases ih (c :: acc) x hx with ha | hb
        · rcases List.mem_cons.mp ha with hc | hd
          · subst hc
            exact Or.inr (List.mem_cons_self _ _)
          · exact Or.inl hd
        · exact Or.inr (List.mem_cons_of_mem _ hb)

/-- On a rooted path the cleaning pass leaves no `.` or `..` behind. -/
lemma cleanComps_noDots : ∀ (l acc : List (List Char)),
    (∀ x ∈ acc, x ≠ ['.'] ∧ x ≠ ['.', '.']) →
    ∀ x ∈ cleanComps true acc l, x ≠ ['.'] ∧ x ≠ ['.', '.'] := by
  intro l
  induction l with
  | nil =>
    intro acc hacc x hx
    simp only [cleanComps, List.mem_reverse] at hx
    exact hacc x hx
  | cons c rest ih =>
    intro acc hacc x hx
    by_cases h1 : c = ['.']
    · simp only [cleanComps] at hx
      rw [if_pos h1] at hx
      exact ih acc hacc x hx
    · by_cases h2 : c = ['.', '.']
      · simp only [cleanComps] at hx
        rw [if_neg h1, if_pos h2] at hx
        cases acc with
        | nil =>
          simp only [] at hx
          rw [if_pos trivial] at hx
          exact ih [] (by simp) x hx
        | cons a acc2 =>
          simp only [] at hx
          by_cases h3 : a = ['.', '.']
          · exact absurd h3 (hacc a (List.mem_cons_self _ _)).2
          · rw [if_neg h3] at hx
            exact ih acc2 (fun y hy => hacc y (List.mem_cons_of_mem _ hy)) x hx
      · simp only [cleanComps] at hx
        rw [if_neg h1, if_neg h2] at hx
        refine ih (c :: acc) ?_ x hx
        intro y hy
        rcases List.mem_cons.mp hy with ha | hb
        · subst ha
          exact ⟨h1, h2⟩
        · exact hacc y hb

/-- Head of a left-biased append. -/
lemma head?_append_left {α : Type} (l1 l2 : List α) (h : l1 ≠ []) :
    (l1 ++ l2).head? = l1.head? := by
  cases l1 with
  | nil => exact absurd rfl h
  | cons a t => rfl

/-- A head is a member. -/
lemma mem_of_head? {α : Type} {l : List α} {a : α} (h : l.head? = some a) :
    a ∈ l := by
  cases l with
  | nil => simp at h
  | cons b t =>
    simp only [List.head?, Option.some.injEq] at h
    subst h
    exact List.mem_cons_self _ _

/-- Joined good components are nonempty. -/
lemma joinWithSlash_ne_nil (cs : List (List Char))
    (h : ∀ x ∈ cs, x ≠ [] ∧ '/' ∉ x) (hne : cs ≠ []) :
    joinWithSlash cs ≠ [] := by
  cases cs with
  | nil => exact absurd rfl hne
  | cons c rest =>
    have hc := (h c (List.mem_cons_self _ _)).1
    cases rest with
    | nil => simpa [joinWithSlash] using hc
    | cons c2 rest2 =>
      simp only [joinWithSlash]
      intro hap
      exact hc (List.append_eq_nil.mp hap).1

/-- Joined good components never end in a separator. -/
lemma joinWithSlash_last (cs : List (List Char))
    (h : ∀ x ∈ cs, x ≠ [] ∧ '/' ∉ x) (hne : cs ≠ []) :
    ∀ ch, (joinWithSlash cs).reverse.head? = some ch → ch ≠ '/' := by
  induction cs with
  | nil => exact absurd rfl hne
  | cons c rest ih =>
    rcases h c (List.mem_cons_self _ _) with ⟨hc1, hc2⟩
    cases rest with
    | nil =>
      intro ch hch hslash
      subst hslash
      exact hc2 (by
        have : '/' ∈ c.reverse := mem_of_head? (by simpa [joinWithSlash] using hch)
        simpa using this)
    | cons c2 rest2 =>
      have hrest : ∀ x ∈ c2 :: rest2, x ≠ [] ∧ '/' ∉ x :=
        fun x hx => h x (List.mem_cons_of_mem _ hx)
      have hjne : joinWithSlash (c2 :: rest2) ≠ [] :=
        joinWithSlash_ne_nil _ hrest (by simp)
      intro ch hch
      refine ih hrest (by simp) ch ?_
      rw [show joinWithSlash (c :: c2 :: rest2)
            = c ++ '/' :: joinWithSlash (c2 :: rest2) from rfl] at hch
      rw [List.reverse_append] at hch
      rw [head?_append_left _ _ (by simp)] at hch
      rw [show ('/' :: joinWithSlash (c2 :: rest2)).reverse
            = (joinWithSlash (c2 :: rest2)).reverse ++ ['/'] by simp] at hch
      rwa [head?_append_left _ _ (by simpa using hjne)] at hch

/-- The cleaning pass is the identity on dot-free components. -/
lemma cleanComps_id (rooted : Bool) : ∀ (l acc : List (List Char)),
    (∀ x ∈ l, x ≠ ['.'] ∧ x ≠ ['.', '.']) →
    cleanComps rooted acc l = acc.reverse ++ l := by
  intro l
  induction l with
  | nil => intro acc _; simp [cleanComps]
  | cons c rest ih =>
    intro acc h
    rcases h c (List.mem_cons_self _ _) with ⟨h1, h2⟩
    simp only [cleanComps, if_neg h1, if_neg h2]
    rw [ih (c :: acc) (fun x hx => h x (List.mem_cons_of_mem _ hx))]
    simp

/-- The rooted unfolding of `Clean`. -/
lemma Clean_abs_eq (p : String) (h : IsAbs p = true) :
    Clean p = String.mk ('/' :: joinWithSlash (cleanComps true [] (comps p.data))) := by
  obtain ⟨t, ht⟩ := isAbs_iff.mp h
  unfold Clean
  rw [if_neg (by rw [ht]; simp)]
  simp only [h]
  rw [if_pos trivial]

/-- Cleaning preserves absoluteness. -/
lemma isAbs_clean (p : String) (h : IsAbs p = true) : IsAbs (Clean p) = true := by
  rw [Clean_abs_eq p h]
  exact isAbs_iff.mpr ⟨_, rfl⟩

/-- The stack left by cleaning a rooted path has good components. -/
lemma cleanComps_abs_good (p : String) :
    ∀ x ∈ cleanComps true [] (comps p.data), x ≠ [] ∧ '/' ∉ x := by
  intro x hx
  rcases cleanComps_sub true (comps p.data) [] x hx with h1 | h2
  · simp at h1
  · exact comps_good p.data x h2

/-- `Clean` is idempotent on absolute paths. -/
lemma Clean_Clean_abs (p : String) (h : IsAbs p = true) :
    Clean (Clean p) = Clean p := by
  have hgood := cleanComps_abs_good p
  have hnd : ∀ x ∈ cleanComps true [] (comps p.data),
      x ≠ ['.'] ∧ x ≠ ['.', '.'] := cleanComps_noDots (comps p.data) [] (by simp)
  rw [Clean_abs_eq p h, Clean_abs_eq _ (isAbs_iff.mpr ⟨_, rfl⟩)]
  have hcomps : comps (String.mk
      ('/' :: joinWithSlash (cleanComps true [] (comps p.data)))).data
      = cleanComps true [] (comps p.data) := by
    rw [data_mk]
    show compsAux [] _ = _
    rw [show compsAux [] ('/' :: joinWithSlash (cleanComps true [] (comps p.data)))
          = compsAux [] (joinWithSlash (cleanComps true [] (comps p.data))) by
        simp [compsAux]]
    exact comps_join _ hgood
  rw [hcomps, cleanComps_id true _ [] hnd]
  simp

/-- `HasSuf · "/"` in terms of the last character. -/
lemma hasSuf_slash_iff (s : String) :
    HasSuf s "/" = true ↔ s.data.reverse.head? = some '/' := by
  unfold HasSuf
  rw [show ("/" : String).data.reverse = ['/'] from rfl]
  cases hd : s.data.reverse with
  | nil => simp [List.isPrefixOf]
  | cons b t =>
    simp only [List.isPrefixOf, Bool.and_eq_true, beq_iff_eq,
      List.head?_cons, Option.some.injEq]
    constructor
    · rintro ⟨h1, -⟩
      exact h1.symm
    · intro h1
      exact ⟨h1.symm, by simp [List.isPrefixOf]⟩

/-- A cleaned absolute path other than `/` has no trailing separator. -/
lemma Clean_abs_no_trailing (p : String) (h : IsAbs p = true)
    (hne : Clean p ≠ "/") : HasSuf (Clean p) "/" = false := by
  have hgood := cleanComps_abs_good p
  rw [Clean_abs_eq p h] at hne ⊢
  rw [← Bool.not_eq_true, hasSuf_slash_iff, data_mk]
  intro hhead
  by_cases hcne : cleanComps true [] (comps p.data) = []
  · rw [hcne] at hne
    exact hne rfl
  · have hjne : joinWithSlash (cleanComps true [] (comps p.data)) ≠ [] :=
      joinWithSlash_ne_nil _ hgood hcne
    rw [show ('/' :: joinWithSlash (cleanComps true [] (comps p.data))).reverse
          = (joinWithSlash (cleanComps true [] (comps p.data))).reverse ++ ['/']
        by simp] at hhead
    rw [head?_append_left _ _ (by simpa using hjne)] at hhead
    exact joinWithSlash_last _ hgood hcne '/' hhead rfl

/-- Splitting ignores a trailing separator. -/
lemma compsAux_append_slash : ∀ (l acc : List Char),
    compsAux acc (l ++ ['/']) = compsAux acc l := by
  intro l
  induction l with
  | nil =>
    intro acc
    by_cases h : acc = [] <;> simp [compsAux, h]
  | cons ch rest ih =>
    intro acc
    show compsAux acc (ch :: (rest ++ ['/'])) = compsAux acc (ch :: rest)
    by_cases h : ch = '/'
    · simp only [compsAux, if_pos h]
      by_cases ha : acc = []
      · rw [if_pos ha, if_pos ha]
        exact ih []
      · rw [if_neg ha, if_neg ha, ih []]
    · simp only [compsAux, if_neg h]
      exact ih (ch :: acc)

/-- Cleaning ignores a trailing separator on an absolute path. -/
lemma Clean_append_slash (p : String) (h : IsAbs p = true) :
    Clean (p ++ "/") = Clean p := by
  obtain ⟨t, ht⟩ := isAbs_iff.mp h
  have hdata : (p ++ "/").data = p.data ++ ['/'] := String.data_append p "/"
  have habs2 : IsAbs (p ++ "/") = true :=
    isAbs_iff.mpr ⟨t ++ ['/'], by rw [hdata, ht]; rfl⟩
  rw [Clean_abs_eq _ habs2, Clean_abs_eq _ h, hdata]
  rw [show comps (p.data ++ ['/']) = comps p.data from
    compsAux_append_slash p.data []]

/-- Appending a separator yields a trailing separator. -/
lemma hasSuf_append_slash (s : String) : HasSuf (s ++ "/") "/" = true := by
  rw [hasSuf_slash_iff, String.data_append]
  simp

/-- `normPath` is idempotent on absolute paths: the authorization
predicates only ever see paths already in normal form. -/
lemma normPath_idem (p : String) (h : IsAbs p = true) :
    normPath (normPath p) = normPath p := by
  have hcc := Clean_Clean_abs p h
  by_cases hc1 : Clean p ≠ "/" ∧ HasSuf p "/" = true
  · have h1 : normPath p = Clean p ++ "/" := by
      unfold normPath
      rw [if_pos hc1]
    rw [h1]
    have h2 : Clean (Clean p ++ "/") = Clean p := by
      rw [Clean_append_slash (Clean p) (isAbs_clean p h), hcc]
    show normPath (Clean p ++ "/") = Clean p ++ "/"
    simp only [normPath]
    rw [h2, if_pos ⟨hc1.1, hasSuf_append_slash (Clean p)⟩]
  · have h1 : normPath p = Clean p := by
      unfold normPath
      rw [if_neg hc1]
    rw [h1]
    by_cases hr : Clean p = "/"
    · rw [hr]
      decide
    · have h3 : HasSuf (Clean p) "/" = false := Clean_abs_no_trailing p h hr
      simp only [normPath]
      rw [hcc]
      rw [if_neg (by
        rintro ⟨-, hh⟩
        rw [h3] at hh
        cases hh)]

/-! ### Authorization checks run first, on the normalized path (C3) -/

/-- Prefixing a separator yields an absolute path. -/
lemma isAbs_slash_append (q : String) : IsAbs ("/" ++ q) = true :=
  isAbs_iff.mpr ⟨q.data, by rw [String.data_append]; rfl⟩

/-- The only event the read-check step can emit is the read-check
invocation on its argument. -/
lemma runRead_evs (c : ContentValue) (what : Nat) (t : String) :
    ∀ e ∈ (runRead c what t).2, e = Ev.evCheckRead t := by
  intro e he
  unfold runRead at he
  rcases hcr : c.CheckRead with _ | f
  · rw [hcr] at he
    simp at he
  · rw [hcr] at he
    simp only [] at he
    by_cases h : Nat.land what CheckRead ≠ 0
    · rw [if_pos h] at he
      simpa using he
    · rw [if_neg h] at he
      simp at he

/-- The only event the write-check step can emit is the write-check
invocation on its argument. -/
lemma runWrite_evs (c : ContentValue) (what : Nat) (t : String) :
    ∀ e ∈ (runWrite c what t).2, e = Ev.evCheckWrite t := by
  intro e he
  unfold runWrite at he
  rcases hcw : c.CheckWrite with _ | f
  · rw [hcw] at he
    simp at he
  · rw [hcw] at he
    simp only [] at he
    by_cases h : Nat.land what CheckWrite ≠ 0
    · rw [if_pos h] at he
      simpa using he
    · rw [if_neg h] at he
      simp at he

/-- Events of one resolver unfolding, classified: any property holding for
the check events, for `Readlink` events and for everything the recursive
call emits holds for the whole trace. -/
lemma realPathCore_evs (fs : Fs) (c : ContentValue) (p : String)
    (what : Nat) (recur : String → Except Err String × List Ev)
    (P : Ev → Prop)
    (hread : ∀ e ∈ (runRead c what (normPath p)).2, P e)
    (hwrite : ∀ e ∈ (runWrite c what (normPath p)).2, P e)
    (hlink : ∀ r, P (Ev.evReadlink r))
    (hrec : ∀ q e, e ∈ (recur ("/" ++ q)).2 → P e) :
    ∀ e ∈ (RealPathCore fs c p what recur).2, P e := by
  intro e he
  simp only [RealPathCore] at he
  split at he
  · simp at he
  · split at he
    · simp at he
    · split at he
      · rename_i e2 evs2 hrr
        simp only [] at he
        exact hread e (by rw [hrr]; exact he)
      · rename_i evs1 hrr
        split at he
        · rename_i e2 evs2 hww
          simp only [List.mem_append] at he
          rcases he with ha | hb
          · exact hread e (by rw [hrr]; exact ha)
          · exact hwrite e (by rw [hww]; exact hb)
        · rename_i evs2 hww
          split at he
          · simp only [List.mem_append] at he
            rcases he with ha | hb
            · exact hread e (by rw [hrr]; exact ha)
            · exact hwrite e (by rw [hww]; exact hb)
          · split at he
            · simp only [List.mem_append, List.mem_singleton] at he
              rcases he with (ha | hb) | hc
              · exact hread e (by rw [hrr]; exact ha)
              · exact hwrite e (by rw [hww]; exact hb)
              · subst hc
                exact hlink _
            · split at he
              · simp only [List.mem_append, List.mem_singleton] at he
                rcases he with (ha | hb) | hc
                · exact hread e (by rw [hrr]; exact ha)
                · exact hwrite e (by rw [hww]; exact hb)
                · subst hc
                  exact hlink _
              · split at he
                · simp only [List.mem_append, List.mem_singleton] at he
                  rcases he with (ha | hb) | hc
                  · exact hread e (by rw [hrr]; exact ha)
                  · exact hwrite e (by rw [hww]; exact hb)
                  · subst hc
                    exact hlink _
                · split at he
                  · rename_i e3 evs3 hrq
                    simp only [List.mem_append, List.mem_singleton] at he
                    rcases he with ((ha | hb) | hc) | hd
                    · exact hread e (by rw [hrr]; exact ha)
                    · exact hwrite e (by rw [hww]; exact hb)
                    · subst hc
                      exact hlink _
                    · exact hrec _ e (by rw [hrq]; exact hd)
                  · rename_i r3 evs3 hrq
                    simp only [List.mem_append, List.mem_singleton] at he
                    rcases he with ((ha | hb) | hc) | hd
                    · exact hread e (by rw [hrr]; exact ha)
                    · exact hwrite e (by rw [hww]; exact hb)
                    · subst hc
                      exact hlink _
                    · exact hrec _ e (by rw [hrq]; exact hd)

/-- Every check event anywhere in a resolution (including recursive
symlink resolutions) carries a path in `normPath` normal form. -/
lemma realPath_check_args (fs : Fs) (c : ContentValue) (what : Nat) :
    ∀ (n : Nat) (p : String), IsAbs p = true →
      ∀ e ∈ (RealPath fs c p what n).2, ∀ s,
        e = Ev.evCheckRead s ∨ e = Ev.evCheckWrite s → normPath s = s := by
  intro n
  induction n with
  | zero =>
    intro p hp e he
    simp [RealPath] at he
  | succ m ih =>
    intro p hp e he s hs
    refine realPathCore_evs fs c p what (fun q => RealPath fs c q what m)
      (fun e => ∀ s, e = Ev.evCheckRead s ∨ e = Ev.evCheckWrite s → normPath s = s)
      ?_ ?_ ?_ ?_ e he s hs
    · intro e2 he2 s2 hs2
      have := runRead_evs c what (normPath p) e2 he2
      rcases hs2 with h1 | h1 <;> rw [h1] at this
      · rw [Ev.evCheckRead.inj this]
        exact normPath_idem p hp
      · cases this
    · intro e2 he2 s2 hs2
      have := runWrite_evs c what (normPath p) e2 he2
      rcases hs2 with h1 | h1 <;> rw [h1] at this
      · cases this
      · rw [Ev.evCheckWrite.inj this]
        exact normPath_idem p hp
    · intro r s2 hs2
      rcases hs2 with h1 | h1 <;> cases h1
    · intro q e2 he2
      exact ih ("/" ++ q) (isAbs_slash_append q) e2 he2

/-- When a read check is requested and present, the very first event of a
resolution is the read-check invocation on the normalized virtual path —
before any filesystem access. -/
lemma realPathCore_head_read (fs : Fs) (c : ContentValue) (p : String)
    (what : Nat) (recur : String → Except Err String × List Ev)
    (f : String → Option String)
    (h1 : IsAbs c.RootDir = true) (h2 : IsAbs p = true)
    (hcr : c.CheckRead = some f) (hl : Nat.land what CheckRead ≠ 0) :
    ((RealPathCore fs c p what recur).2).head?
      = some (Ev.evCheckRead (normPath p)) := by
  have hrr : runRead c what (normPath p)
      = (f (normPath p), [Ev.evCheckRead (normPath p)]) := by
    unfold runRead
    rw [hcr]
    exact if_pos hl
  simp only [RealPathCore, h1, h2, Bool.true_eq_false, if_false, hrr]
  cases hf : f (normPath p) with
  | some e => simp
  | none =>
    simp only []
    rcases hw : runWrite c what (normPath p) with ⟨oW, eW⟩
    cases oW with
    | some e => simp
    | none =>
      simp only []
      split
      · simp
      · rcases hrl : Readlink fs (Join c.RootDir p) with _ | lname
        · simp
        · rcases hrel : Rel c.RootDir (Join (Dir (Join c.RootDir p)) lname)
            with u | lrel
          · simp [hrel]
          · simp only [hrel]
            split
            · simp
            · rcases hq : recur ("/" ++ lrel) with ⟨res3, evs3⟩
              cases res3 <;> simp [hq]

/-- When the read-check step is inert and a write check is requested and
present, the very first event of a resolution is the write-check
invocation on the normalized virtual path. -/
lemma realPathCore_head_write (fs : Fs) (c : ContentValue) (p : String)
    (what : Nat) (recur : String → Except Err String × List Ev)
    (g : String → Option String)
    (h1 : IsAbs c.RootDir = true) (h2 : IsAbs p = true)
    (hrr : runRead c what (normPath p) = (none, []))
    (hcw : c.CheckWrite = some g) (hl : Nat.land what CheckWrite ≠ 0) :
    ((RealPathCore fs c p what recur).2).head?
      = some (Ev.evCheckWrite (normPath p)) := by
  have hww : runWrite c what (normPath p)
      = (g (normPath p), [Ev.evCheckWrite (normPath p)]) := by
    unfold runWrite
    rw [hcw]
    exact if_pos hl
  simp only [RealPathCore, h1, h2, Bool.true_eq_false, if_false, hrr, hww]
  cases hg : g (normPath p) with
  | some e => simp
  | none =>
    simp only []
    split
    · simp
    · rcases hrl : Readlink fs (Join c.RootDir p) with _ | lname
      · simp
      · rcases hrel : Rel c.RootDir (Join (Dir (Join c.RootDir p)) lname)
          with u | lrel
        · simp [hrel]
        · simp only [hrel]
          split
          · simp
          · rcases hq : recur ("/" ++ lrel) with ⟨res3, evs3⟩
            cases res3 <;> simp [hq]

/-- C3: when a resolution requests a read check (respectively a write
check) and the corresponding predicate is present, that predicate is
invoked on the normalized virtual path — `Clean`ed, with the
distinguishing trailing separator preserved — as the very first observable
event, before any filesystem access; and every check event anywhere in the
resolution (including recursive symlink resolutions) carries a path in
normal form, so the predicates never see raw unnormalized input. -/
theorem c3_checks_normalized_first (fs : Fs) (c : ContentValue)
    (p : String) (what n : Nat)
    (h1 : IsAbs c.RootDir = true) (h2 : IsAbs p = true) :
    (∀ f, c.CheckRead = some f → Nat.land what CheckRead ≠ 0 →
      ((RealPath fs c p what (n + 1)).2).head?
        = some (Ev.evCheckRead (normPath p)))
    ∧ (∀ g, c.CheckWrite = some g →
        runRead c what (normPath p) = (none, []) →
        Nat.land what CheckWrite ≠ 0 →
      ((RealPath fs c p what (n + 1)).2).head?
        = some (Ev.evCheckWrite (normPath p)))
    ∧ (∀ e s, e ∈ (RealPath fs c p what (n + 1)).2 →
        e = Ev.evCheckRead s ∨ e = Ev.evCheckWrite s → normPath s = s) := by
  refine ⟨?_, ?_, ?_⟩
  · intro f hf hl
    exact realPathCore_head_read fs c p what _ f h1 h2 hf hl
  · intro g hg hrr hl
    exact realPathCore_head_write fs c p what _ g h1 h2 hrr hg hl
  · intro e s he hs
    exact realPath_check_args fs c what (n + 1) p h2 e he s hs

/-- A content value with both authorization predicates installed (each
accepting everything), used to witness C3. -/
def checkedContent : ContentValue :=
  { RootDir := "/r", CheckRead := some (fun _ => none),
    CheckWrite := some (fun _ => none) }

/-- Witness for C3: with both predicates installed under root `/r`, the
read-mode resolution of `/a/../b/` invokes the read check first, on the
normalized `/b/` (trailing separator preserved), and the write-mode
resolution invokes the write check first on the same normal form. -/
theorem c3_checks_normalized_first_witness :
    ((RealPath [] checkedContent "/a/../b/" CheckRead 1).2).head?
      = some (Ev.evCheckRead "/b/")
    ∧ ((RealPath [] checkedContent "/a/../b/" CheckWrite 1).2).head?
      = some (Ev.evCheckWrite "/b/") := by
  constructor
  · have h := (c3_checks_normalized_first [] checkedContent "/a/../b/"
      CheckRead 0 (by decide) (by decide)).1 (fun _ => none) rfl (by decide)
    rw [show normPath "/a/../b/" = "/b/" by decide] at h
    exact h
  · have h := (c3_checks_normalized_first [] checkedContent "/a/../b/"
      CheckWrite 0 (by decide) (by decide)).2.1 (fun _ => none) rfl
      (by decide) (by decide)
    rw [show normPath "/a/../b/" = "/b/" by decide] at h
    exact h

/-! ### Cancellation before read (C4) -/

/-- Path resolution never opens a handle and never mutates the
filesystem: its trace holds only check and `Readlink` events. -/
lemma realPath_no_handles (fs : Fs) (c : ContentValue) (what : Nat) :
    ∀ (n : Nat) (p : String), ∀ e ∈ (RealPath fs c p what n).2,
      (∀ q, e ≠ Ev.evOpen q) ∧ (∀ q d, e ≠ Ev.evCreate q d) := by
  intro n
  induction n with
  | zero =>
    intro p e he
    simp [RealPath] at he
  | succ m ih =>
    intro p e he
    refine realPathCore_evs fs c p what (fun q => RealPath fs c q what m)
      (fun e => (∀ q, e ≠ Ev.evOpen q) ∧ (∀ q d, e ≠ Ev.evCreate q d))
      ?_ ?_ ?_ ?_ e he
    · intro e2 he2
      rw [runRead_evs c what (normPath p) e2 he2]
      exact ⟨fun q h => Ev.noConfusion h, fun q d h => Ev.noConfusion h⟩
    · intro e2 he2
      rw [runWrite_evs c what (normPath p) e2 he2]
      exact ⟨fun q h => Ev.noConfusion h, fun q d h => Ev.noConfusion h⟩
    · intro r
      exact ⟨fun q h => Ev.noConfusion h, fun q d h => Ev.noConfusion h⟩
    · intro q e2 he2
      exact ih ("/" ++ q) e2 he2

/-- Counterexample to C4 as stated: with the cancellation signal already
fired, `Content.read` of `/a` under root `/r` does fail with the
cancellation error — but only after path resolution has already touched
the filesystem (the `Readlink` call on `/r/a`), so "performing no
filesystem access" is false for the `Content.read` call as a whole. -/
theorem c4_counterexample :
    contentValueRead { startCancel := true, endCancel := true } []
        { RootDir := "/r" } "/a" none 1
      = (.error .canceled, [Ev.evReadlink "/r/a"])
    ∧ ([Ev.evReadlink "/r/a"] : List Ev) ≠ [] := by
  constructor
  · decide
  · decide

/-- C4 as amended: with the cancellation signal already fired, a
`Content.read` whose path resolution succeeds fails with the cancellation
error before opening any file handle — no handle is opened and no
filesystem mutation is performed (path resolution may still have inspected
symlinks via `Readlink`), and no partial result is returned. -/
theorem c4_amended_read_cancelled (ctx : Ctx) (fs : Fs) (c : ContentValue)
    (p fpath : String) (fault : Option Fault) (n : Nat)
    (hc : ctx.startCancel = true)
    (hres : (RealPath fs c p CheckRead n).1 = .ok fpath) :
    (contentValueRead ctx fs c p fault n).1 = .error .canceled
    ∧ ∀ e ∈ (contentValueRead ctx fs c p fault n).2,
        (∀ q, e ≠ Ev.evOpen q) ∧ (∀ q d, e ≠ Ev.evCreate q d) := by
  rcases hrp : RealPath fs c p CheckRead n with ⟨res, evs⟩
  rw [hrp] at hres
  simp only at hres
  subst hres
  have hsafe : SafeReadFile ctx fs fpath fault = (.error .canceled, []) := by
    unfold SafeReadFile
    rw [if_pos hc]
  have hread : contentValueRead ctx fs c p fault n
      = (.error .canceled, evs ++ []) := by
    unfold contentValueRead
    rw [hrp]
    simp only []
    rw [hsafe]
    simp only [polishError]
  constructor
  · rw [hread]
  · intro e he
    rw [hread] at he
    simp only [List.append_nil] at he
    exact realPath_no_handles fs c CheckRead n p e (by rw [hrp]; exact he)

/-- Witness for the amended C4: reading `/a` under root `/r` on an
already-cancelled context fails with the cancellation error and the trace
opens no handle. -/
theorem c4_amended_read_cancelled_witness :
    (contentValueRead { startCancel := true, endCancel := true } []
        { RootDir := "/r" } "/a" none 1).1 = .error .canceled := by
  have h := c4_amended_read_cancelled
    { startCancel := true, endCancel := true } [] { RootDir := "/r" }
    "/a" "/r/a" none 1 rfl (by decide)
  exact h.1

/-! ### Rejected write check stops everything (C5) -/

/-- In write mode the read-check step is inert: the `CheckRead` bit is not
in the mask, so no predicate runs and no event is emitted. -/
lemma runRead_writeMode (c : ContentValue) (s : String) :
    runRead c CheckWrite s = (none, []) := by
  unfold runRead
  rcases hcr : c.CheckRead with _ | f
  · rfl
  · exact if_neg (by decide)

/-- C5: if the write-authorization predicate rejects the (normalized)
path, `Content.write` fails with the predicate's error and its whole
observable trace is that single predicate invocation — no file is created
or modified, and the filesystem is never even consulted. -/
theorem c5_write_rejected (fs : Fs) (c : ContentValue)
    (p data msg : String) (g : String → Option String) (n : Nat)
    (h1 : IsAbs c.RootDir = true) (h2 : IsAbs p = true)
    (hg : c.CheckWrite = some g) (hrej : g (normPath p) = some msg) :
    contentValueWrite fs c p data (n + 1)
      = (.error (.check msg), [Ev.evCheckWrite (normPath p)]) := by
  have hww : runWrite c CheckWrite (normPath p)
      = (some msg, [Ev.evCheckWrite (normPath p)]) := by
    have hstep : runWrite c CheckWrite (normPath p)
        = (g (normPath p), [Ev.evCheckWrite (normPath p)]) := by
      unfold runWrite
      rw [hg]
      exact if_pos (by decide)
    rw [hstep, hrej]
  have hcore : RealPath fs c p CheckWrite (n + 1)
      = (.error (.check msg), [Ev.evCheckWrite (normPath p)]) := by
    show RealPathCore fs c p CheckWrite
      (fun q => RealPath fs c q CheckWrite n) = _
    simp only [RealPathCore, h1, h2, Bool.true_eq_false, if_false,
      runRead_writeMode, hww]
    rfl
  unfold contentValueWrite
  rw [hcore]

/-- Witness inputs for C5: a write predicate rejecting `/secret`. -/
def rejectingContent : ContentValue :=
  { RootDir := "/r",
    CheckWrite := some (fun s => if s = "/secret" then some "denied" else none) }

/-- Witness for C5: writing `/secret` fails with the predicate's error and
the trace holds nothing but the write-check invocation. -/
theorem c5_write_rejected_witness :
    contentValueWrite [] rejectingContent "/secret" "x" 1
      = (.error (.check "denied"), [Ev.evCheckWrite "/secret"]) := by
  have h := c5_write_rejected [] rejectingContent "/secret" "x" "denied"
    (fun s => if s = "/secret" then some "denied" else none) 0
    (by decide) (by decide) rfl (by decide)
  exact h

/-! ### Forced close reports cancellation (C6) -/

/-- C6: when the transfer is interrupted because the cancellation observer
forcibly closed the handle (the `os.ErrClosed` outcome, with the context
cancelled), `SafeReadFile` reports the cancellation error rather than the
closed-file I/O error; a transfer failure not caused by the forced close
is reported as the genuine I/O fault. -/
theorem c6_forced_close_reports_cancel (ctx : Ctx) (fs : Fs)
    (fpath data : String) (e : PathError)
    (h0 : ctx.startCancel = false)
    (hopen : openFile fs fpath = .ok data)
    (hend : ctx.endCancel = true) :
    (SafeReadFile ctx fs fpath (some Fault.closed)).1 = .error .canceled
    ∧ (SafeReadFile ctx fs fpath (some (Fault.osErr e))).1
        = .error (.io e) := by
  constructor
  · unfold SafeReadFile
    rw [if_neg (by simp [h0]), hopen]
    simp only []
    rw [if_pos hend]
  · unfold SafeReadFile
    rw [if_neg (by simp [h0]), hopen]

/-- Witness for C6: a forced close while reading `/r/f` on a context
cancelled mid-transfer yields the cancellation error, while a genuine I/O
fault is reported as itself. -/
theorem c6_forced_close_reports_cancel_witness :
    (SafeReadFile { startCancel := false, endCancel := true }
        [("/r/f", Node.file "hi")] "/r/f" (some Fault.closed)).1
      = .error .canceled
    ∧ (SafeReadFile { startCancel := false, endCancel := true }
        [("/r/f", Node.file "hi")] "/r/f"
        (some (Fault.osErr { op := "read", path := "/r/f", msg := "fault" }))).1
      = .error (.io { op := "read", path := "/r/f", msg := "fault" }) :=
  c6_forced_close_reports_cancel { startCancel := false, endCancel := true }
    [("/r/f", Node.file "hi")] "/r/f" "hi"
    { op := "read", path := "/r/f", msg := "fault" }
    rfl (by decide) rfl

/-! ### The post-write callback (C7) -/

/-- C7: after a successful filesystem write, `Content.write` invokes the
host-supplied `OnWrite` callback with the resulting entry's metadata
(both the creation and the callback invocation appear in the trace, so
the written content stays committed even when the callback errs); a
callback error becomes the write's own result, and on success the write
returns no value. -/
theorem c7_onwrite_callback (fs : Fs) (c : ContentValue)
    (p data fpath : String) (entry : Entry) (evs : List Ev) (n : Nat)
    (hres : RealPath fs c p CheckWrite n = (.ok fpath, evs))
    (hcreate : fsutilCreate fs fpath data = .ok entry) :
    contentValueWrite fs c p data n
      = ((match c.OnWrite entry with
          | some msg => .error (.hook msg)
          | none => .ok ()),
         evs ++ [Ev.evCreate fpath data, Ev.evOnWrite entry])
    ∧ Ev.evCreate fpath data ∈ (contentValueWrite fs c p data n).2
    ∧ Ev.evOnWrite entry ∈ (contentValueWrite fs c p data n).2 := by
  have hmain : contentValueWrite fs c p data n
      = ((match c.OnWrite entry with
          | some msg => .error (.hook msg)
          | none => .ok ()),
         evs ++ [Ev.evCreate fpath data, Ev.evOnWrite entry]) := by
    unfold contentValueWrite
    rw [hres]
    simp only []
    rw [hcreate]
    simp only []
    cases ho : c.OnWrite entry <;> simp [ho]
  refine ⟨hmain, ?_, ?_⟩
  · rw [hmain]
    simp
  · rw [hmain]
    simp

/-- Witness for C7: writing `hi` to `/a` under root `/r` (with the inert
default callback) commits the file, invokes the callback with the
resulting entry, and returns no value. -/
theorem c7_onwrite_callback_witness :
    contentValueWrite [] { RootDir := "/r" } "/a" "hi" 1
      = (.ok (), [Ev.evReadlink "/r/a", Ev.evCreate "/r/a" "hi",
          Ev.evOnWrite { path := "/r/a", size := 2, mode := 420 }]) := by
  have h := (c7_onwrite_callback [] { RootDir := "/r" } "/a" "hi" "/r/a"
    { path := "/r/a", size := 2, mode := 420 } [Ev.evReadlink "/r/a"] 1
    (by decide) (by decide)).1
  exact h.trans (by decide)

/-! ### Listing a directory (C8) -/

/-- With enough iterations, the batched loop formats every entry. -/
lemma listBatchesAux_eq (n : Nat) : ∀ l : List DirEntry, l.length ≤ n →
    listBatchesAux n l = l.map fmtEntry := by
  induction n with
  | zero =>
    intro l hl
    cases l with
    | nil => rfl
    | cons a t => simp at hl
  | succ m ih =>
    intro l hl
    cases l with
    | nil => rfl
    | cons a t =>
      show listBatchesAux (m + 1) (a :: t) = _
      simp only [listBatchesAux]
      rw [ih ((a :: t).drop 16) (by
        simp only [List.length_drop, List.length_cons]
        simp only [List.length_cons] at hl
        omega)]
      rw [← List.map_append, List.take_append_drop]

/-- The batched enumeration collects exactly the formatted entries, in
directory order. -/
lemma listBatches_eq_map (l : List DirEntry) :
    listBatches l = l.map fmtEntry :=
  listBatchesAux_eq l.length l le_rfl

/-- C8: `Content.list` of a resolvable directory returns the full entry
listing in the directory's stable order — computed by the 16-entry
batched loop, which equals mapping the formatter over every entry, with a
trailing separator appended to exactly the entries that are themselves
directories. -/
theorem c8_list_entries (fs : Fs) (c : ContentValue) (p fpath : String)
    (entries : List DirEntry) (evs : List Ev) (n : Nat)
    (hres : RealPath fs c (if HasSuf p "/" then p else p ++ "/")
      CheckRead n = (.ok fpath, evs))
    (hdir : readDir fs fpath = .ok entries) :
    (contentValueList fs c p n).1 = .ok (listBatches entries)
    ∧ listBatches entries = entries.map fmtEntry
    ∧ ∀ e ∈ entries, fmtEntry e = if e.isDir then e.name ++ "/" else e.name := by
  refine ⟨?_, listBatches_eq_map entries, fun e _ => rfl⟩
  show (contentValueList fs c p n).1 = _
  simp only [contentValueList]
  rw [hres]
  simp only []
  rw [hdir]

/-- Witness for C8: listing `/d` (a directory holding a file `f` and a
directory `sub`) returns both names in order, the directory suffixed. -/
theorem c8_list_entries_witness :
    (contentValueList [("/r/d", Node.dir [{ name := "f", isDir := false },
        { name := "sub", isDir := true }])] { RootDir := "/r" } "/d" 1).1
      = .ok ["f", "sub/"] := by
  have h := (c8_list_entries
    [("/r/d", Node.dir [{ name := "f", isDir := false },
      { name := "sub", isDir := true }])]
    { RootDir := "/r" } "/d" "/r/d"
    [{ name := "f", isDir := false }, { name := "sub", isDir := true }]
    [Ev.evReadlink "/r/d"] 1 (by decide) (by decide)).1
  exact h.trans (by decide)

/-! ### Errors name the virtual path (C9) -/

/-- The resolver itself never produces a `*os.PathError`: its errors are
the absolute-path guards, the predicates' verdicts and the confinement
errors, none of which carry a real path. -/
lemma realPath_no_io (fs : Fs) (c : ContentValue) (what : Nat) :
    ∀ (n : Nat) (p : String) (e : PathError),
      (RealPath fs c p what n).1 = .error (.io e) → False := by
  intro n
  induction n with
  | zero =>
    intro p e h
    simp [RealPath] at h
  | succ m ih =>
    intro p e h
    have h' : (RealPathCore fs c p what
        (fun q => RealPath fs c q what m)).1 = .error (.io e) := h
    simp only [RealPathCore] at h'
    split at h'
    · simp at h'
    · split at h'
      · simp at h'
      · split at h'
        · simp at h'
        · split at h'
          · simp at h'
          · split at h'
            · simp at h'
            · split at h'
              · simp at h'
              · split at h'
                · simp at h'
                · split at h'
                  · simp at h'
                  · split at h'
                    · rename_i lrel hrel hcf xrec e3 evs3 hrq
                      simp only [] at h'
                      refine ih ("/" ++ lrel) e ?_
                      rw [hrq]
                      exact h'
                    · simp at h'

/-- A polished error that is a `*os.PathError` names the virtual path. -/
lemma polishError_io {p : String} {err : Err} {e : PathError}
    (h : polishError p err = Err.io e) : e.path = p := by
  cases err <;> simp only [polishError, Err.io.injEq] at h <;> try cases h
  rfl

/-- C9: whenever `Content.read`, `Content.write` or `Content.list` fails
with an underlying OS error, the surfaced `*os.PathError` references the
virtual path the script supplied, never the real path under the
confinement root. -/
theorem c9_errors_virtual_path (ctx : Ctx) (fs : Fs) (c : ContentValue)
    (p data : String) (fault : Option Fault) (n : Nat)
    (e1 e2 e3 : PathError) :
    ((contentValueRead ctx fs c p fault n).1 = .error (.io e1) → e1.path = p)
    ∧ ((contentValueWrite fs c p data n).1 = .error (.io e2) → e2.path = p)
    ∧ ((contentValueList fs c p n).1 = .error (.io e3) → e3.path = p) := by
  refine ⟨?_, ?_, ?_⟩
  · intro h
    rcases hrp : RealPath fs c p CheckRead n with ⟨res, evs⟩
    unfold contentValueRead at h
    rw [hrp] at h
    cases res with
    | error err =>
      simp only [] at h
      exact absurd (show (RealPath fs c p CheckRead n).1 = .error (.io e1) by
        rw [hrp]
        simpa using h) (fun hh => realPath_no_io fs c CheckRead n p e1 hh)
    | ok fpath =>
      simp only [] at h
      rcases hsf : SafeReadFile ctx fs fpath fault with ⟨res2, evs2⟩
      rw [hsf] at h
      cases res2 with
      | error err2 =>
        simp only [] at h
        exact polishError_io (by simpa using h)
      | ok d2 => simp at h
  · intro h
    rcases hrp : RealPath fs c p CheckWrite n with ⟨res, evs⟩
    unfold contentValueWrite at h
    rw [hrp] at h
    cases res with
    | error err =>
      simp only [] at h
      exact absurd (show (RealPath fs c p CheckWrite n).1 = .error (.io e2) by
        rw [hrp]
        simpa using h) (fun hh => realPath_no_io fs c CheckWrite n p e2 hh)
    | ok fpath =>
      simp only [] at h
      rcases hcr : fsutilCreate fs fpath data with err2 | entry
      · rw [hcr] at h
        simp only [] at h
        exact polishError_io (by simpa using h)
      · rw [hcr] at h
        simp only [] at h
        cases ho : c.OnWrite entry <;> rw [ho] at h <;> simp at h
  · intro h
    rcases hrp : RealPath fs c
      (if HasSuf p "/" then p else p ++ "/") CheckRead n with ⟨res, evs⟩
    simp only [contentValueList] at h
    rw [hrp] at h
    cases res with
    | error err =>
      simp only [] at h
      exact absurd (show (RealPath fs c (if HasSuf p "/" then p else p ++ "/")
            CheckRead n).1 = .error (.io e3) by
        rw [hrp]
        simpa using h)
        (fun hh => realPath_no_io fs c CheckRead n _ e3 hh)
    | ok fpath =>
      simp only [] at h
      rcases hrd : readDir fs fpath with err2 | entries
      · rw [hrd] at h
        simp only [] at h
        exact polishError_io (by simpa using h)
      · rw [hrd] at h
        simp at h

/-- Witness for C9: reading the missing `/missing` under root `/r` fails
with an OS error whose path is the virtual `/missing`, not `/r/missing`. -/
theorem c9_errors_virtual_path_witness :
    ({ op := "open", path := "/missing", msg := "no such file or directory" }
      : PathError).path = "/missing" :=
  (c9_errors_virtual_path { startCancel := false, endCancel := false } []
    { RootDir := "/r" } "/missing" "" none 1
    { op := "open", path := "/missing", msg := "no such file or directory" }
    { op := "", path := "", msg := "" }
    { op := "", path := "", msg := "" }).1 (by decide)

end Chisel
